import Mathlib

/-!
Shallow embedding of `query.c` (ericpruitt/query): a streaming record-driven
subprocess dispatcher.  The program reads delimited file-path tokens from
standard input and, for each token, opens the named file, spawns a child
running the configured command with the file as its standard input, waits
for the child, classifies its termination, and prints the token when the
configured polarity condition on the classified exit code holds.

The embedding models:
 * the tokenizer (`records`, `tokensOfRecord`): getline/getdelim reads plus
   the in-buffer delimiter handling of `main` (query.c lines 169-216);
 * the record processor (`processToken`): open/fstat/S_ISDIR/setenv, fork,
   descriptor wiring, execvp-failure SIGUSR1 path, wait and classification
   (query.c lines 218-302);
 * the driving loop (`processTokenList`, `processRecords`, `run`) including
   the non-fatal-error flag and the final exit status (query.c line 305).

System-call results (open, fstat, fork, execvp, wait, child termination) are
supplied by an oracle `Env` mapping each token to the outcome of processing
it; everything else is computed exactly as the C code does.
-/

namespace Query

/-- A byte of the input stream (0-255 in the real program; the model does not
need the bound). -/
abbrev Byte := Nat

/-- `delimation_et` (query.c lines 36-40): the three file-name delimitation
modes. -/
inductive Delimation where
  | line
  | nullByte
  | whitespace
deriving DecidableEq, Repr

/-- The configuration distilled from option parsing (query.c lines 107-147),
immutable afterwards.  `command` stands for `argv[optind]`, the program whose
image the child execs. -/
structure Config where
  delimation : Delimation
  displayOnSuccess : Bool
  redirectStderr : Bool
  command : String
deriving DecidableEq, Repr

/-- How a reaped child terminated: `WIFEXITED` with `WEXITSTATUS`, or
`WIFSIGNALED` with `WTERMSIG` (query.c lines 275-278). -/
inductive ChildTermination where
  | exited (code : Nat)
  | signaled (sig : Nat)
deriving DecidableEq, Repr

/-- Oracle outcome for processing one token: which system call fails, or how
the child terminates.  `waitFail interrupted` records whether the wait failure
was an interruption (`EINTR`); the C code never inspects `errno` there. -/
inductive RecordOutcome where
  | openFail
  | fstatFail
  | isDir
  | forkFail
  | execFail
  | waitFail (interrupted : Bool)
  | done (t : ChildTermination)
deriving DecidableEq, Repr

/-- The environment oracle: what happens when the record processor handles a
given token (path). -/
abbrev Env := List Byte → RecordOutcome

/-- Observable events of a run: diagnostics on the error stream, process
lifecycle events, and bytes emitted on standard output. -/
inductive Event where
  | diagOpen (path : List Byte)
  | diagStat (path : List Byte)
  | diagDir (path : List Byte)
  | diagFork
  | diagWait
  | diagExec (cmd : String)
  | spawn (path : List Byte)
  | reap (path : List Byte)
  | emit (bytes : List Byte)
  | fatalNotify
deriving DecidableEq, Repr

/-- C `isspace` in the default locale, as used at query.c line 199: space and
the five control characters `\t \n \v \f \r` (bytes 9-13 and 32). -/
def isspaceB (b : Byte) : Bool :=
  b == 32 || (9 ≤ b && b ≤ 13)

/-- The delimiter byte the raw read stops at: `'\0'` for `getdelim` in
NullByte mode, `'\n'` for `getline` otherwise (query.c lines 174-178). -/
def delimByte : Delimation → Byte
  | .nullByte => 0
  | _ => 10

/-- Helper for `records`: accumulates the current record (reversed) while
scanning the input. -/
def recordsAux (delim : Byte) : List Byte → List Byte → List (List Byte)
  | acc, [] => if acc.isEmpty then [] else [acc.reverse]
  | acc, b :: rest =>
      if b = delim then (b :: acc).reverse :: recordsAux delim [] rest
      else recordsAux delim (b :: acc) rest

/-- The sequence of raw reads `getline`/`getdelim` performs on the input:
each record runs up to and including the next delimiter byte; a final
unterminated record is returned as-is; end of input yields no record
(query.c lines 173-188). -/
def records (delim : Byte) (input : List Byte) : List (List Byte) :=
  recordsAux delim [] input

/-- Helper for `wordsOf`: maximal runs of nonzero bytes, with the current run
accumulated in reverse. -/
def nonzeroRuns : List Byte → List Byte → List (List Byte)
  | acc, [] => if acc.isEmpty then [] else [acc.reverse]
  | acc, b :: rest =>
      if b = 0 then
        if acc.isEmpty then nonzeroRuns [] rest
        else acc.reverse :: nonzeroRuns [] rest
      else nonzeroRuns (b :: acc) rest

/-- The words of a NUL-punched line: the maximal runs of nonzero bytes, in
order.  This is what the cursor loop of query.c lines 206-302 iterates over in
Whitespace mode (skip NUL bytes to the next word start, process the word,
skip to the word's end). -/
def wordsOf (l : List Byte) : List (List Byte) :=
  nonzeroRuns [] l

/-- The tokens the tokenizer dispatches to the record processor for one raw
record (query.c lines 193-216):
 * Line mode: a trailing `'\n'` is overwritten with `'\0'`; the token is the
   C string at the buffer start; if it is empty (`*cursor == '\0'`) the inner
   loop breaks and no token is dispatched, otherwise exactly this one token.
 * NullByte mode: the buffer is unmodified (the `getdelim` terminator `'\0'`
   already ends the C string); same empty-token break, one token otherwise.
 * Whitespace mode: every ASCII whitespace byte is overwritten with `'\0'`
   and each word of the punched line is dispatched in order. -/
def tokensOfRecord (d : Delimation) (record : List Byte) : List (List Byte) :=
  match d with
  | .whitespace => wordsOf (record.map (fun b => if isspaceB b then 0 else b))
  | .line =>
      let stripped := if record.getLast? = some 10 then record.dropLast else record
      let token := stripped.takeWhile (fun b => b != 0)
      if token.isEmpty then [] else [token]
  | .nullByte =>
      let token := record.takeWhile (fun b => b != 0)
      if token.isEmpty then [] else [token]

/-- Classification of a child's termination (query.c lines 275-278): a normal
exit keeps its code, a termination by signal maps to `128 + signal`. -/
def classify : ChildTermination → Nat
  | .exited code => code
  | .signaled sig => sig + 128

/-- The emit decision (query.c lines 283-284): display on success and code 0,
or display on failure and nonzero code. -/
def emitDecision (displayOnSuccess : Bool) (code : Nat) : Bool :=
  (displayOnSuccess && code == 0) || (!displayOnSuccess && code != 0)

/-- The bytes printed when a record is emitted (query.c lines 285-289): in
NullByte mode `fwrite(line, line_length, 1, stdout)` writes the raw record
including its terminator; otherwise `puts(cursor)` writes the token text
followed by `'\n'`. -/
def emitBytes (d : Delimation) (rawRecord token : List Byte) : List Byte :=
  match d with
  | .nullByte => rawRecord
  | _ => token ++ [10]

/-- Result of processing a token, a token list, or a record list: `fatal` is
an immediate `return 1` (remaining input is never looked at); `cont` carries
the events so far and whether a non-fatal error was recorded. -/
inductive StepResult where
  | fatal (events : List Event)
  | cont (events : List Event) (nonFatal : Bool)
deriving DecidableEq, Repr

/-- The events of a `StepResult`. -/
def stepEvents : StepResult → List Event
  | .fatal evs => evs
  | .cont evs _ => evs

/-- The record processor for one dispatched token (query.c lines 218-293):
 * `open` failure: `perror(cursor)`, non-fatal, skip the token;
 * `fstat` failure: `perror(cursor)`, `return 1`;
 * directory: `EISDIR` diagnostic, non-fatal, skip the token;
 * `fork` failure: `perror("fork")`, `return 1`;
 * `execvp` failure: the child perrors the command on its error stream and
   sends `SIGUSR1`; the parent's handler (query.c lines 87-90) does `exit(1)`;
 * `wait` failure: `perror("wait")`, `return 1` — no `EINTR` distinction;
 * child reaped: classify, then emit when the polarity condition holds. -/
def processToken (cfg : Config) (env : Env) (rawRecord token : List Byte) :
    StepResult :=
  match env token with
  | .openFail => .cont [.diagOpen token] true
  | .fstatFail => .fatal [.diagStat token]
  | .isDir => .cont [.diagDir token] true
  | .forkFail => .fatal [.diagFork]
  | .execFail => .fatal [.spawn token, .diagExec cfg.command, .fatalNotify]
  | .waitFail _ => .fatal [.spawn token, .diagWait]
  | .done t =>
      .cont ([.spawn token, .reap token] ++
        (if emitDecision cfg.displayOnSuccess (classify t)
         then [.emit (emitBytes cfg.delimation rawRecord token)] else []))
        false

/-- Process the tokens of one raw record in order; a fatal outcome stops
everything, non-fatal flags accumulate. -/
def processTokenList (cfg : Config) (env : Env) (rawRecord : List Byte) :
    List (List Byte) → StepResult
  | [] => .cont [] false
  | t :: ts =>
      match processToken cfg env rawRecord t with
      | .fatal evs => .fatal evs
      | .cont evs nf =>
          match processTokenList cfg env rawRecord ts with
          | .fatal evs2 => .fatal (evs ++ evs2)
          | .cont evs2 nf2 => .cont (evs ++ evs2) (nf || nf2)

/-- Process the raw records in order, dispatching each record's tokens. -/
def processRecords (cfg : Config) (env : Env) : List (List Byte) → StepResult
  | [] => .cont [] false
  | r :: rs =>
      match processTokenList cfg env r (tokensOfRecord cfg.delimation r) with
      | .fatal evs => .fatal evs
      | .cont evs nf =>
          match processRecords cfg env rs with
          | .fatal evs2 => .fatal (evs ++ evs2)
          | .cont evs2 nf2 => .cont (evs ++ evs2) (nf || nf2)

/-- The whole run on a given input: the exit status and the event trace.
Exit 1 on a fatal error, else 2 when a non-fatal error was recorded, else 0
(query.c line 305). -/
def run (cfg : Config) (env : Env) (input : List Byte) : Nat × List Event :=
  match processRecords cfg env (records (delimByte cfg.delimation) input) with
  | .fatal evs => (1, evs)
  | .cont evs nonFatal => (if nonFatal then 2 else 0, evs)

/-- The diagnostics that accompany a non-fatal error: an open failure or a
directory path (query.c lines 221-237). -/
def isNonFatalDiag : Event → Bool
  | .diagOpen _ => true
  | .diagDir _ => true
  | _ => false

/-- Scan an event trace tracking how many children are alive: a spawn is only
legal with no child alive, a reap only with exactly one.  Returns `none` when
the trace violates the at-most-one-child discipline, otherwise the number of
children alive at the end. -/
def seqScan : Nat → List Event → Option Nat
  | n, [] => some n
  | n, .spawn _ :: rest => if n = 0 then seqScan 1 rest else none
  | n, .reap _ :: rest => if n = 1 then seqScan 0 rest else none
  | n, _ :: rest => seqScan n rest

/-- The events strictly after the first `fatalNotify` of a trace (empty when
there is none). -/
def afterNotify : List Event → List Event
  | [] => []
  | .fatalNotify :: rest => rest
  | _ :: rest => afterNotify rest

theorem run_events (cfg : Config) (env : Env) (input : List Byte) :
    (run cfg env input).2 =
      stepEvents (processRecords cfg env (records (delimByte cfg.delimation) input)) := by
  unfold run
  cases processRecords cfg env (records (delimByte cfg.delimation) input) <;> rfl

theorem run_exit_of_fatal (cfg : Config) (env : Env) (input : List Byte)
    (evs : List Event)
    (h : processRecords cfg env (records (delimByte cfg.delimation) input) =
      .fatal evs) :
    run cfg env input = (1, evs) := by
  unfold run
  rw [h]

theorem seqScan_append (l1 : List Event) :
    ∀ (n : Nat) (l2 : List Event),
      seqScan n (l1 ++ l2) = (seqScan n l1).bind (fun m => seqScan m l2) := by
  induction l1 with
  | nil => intro n l2; simp [seqScan]
  | cons e rest ih =>
      intro n l2
      cases e <;> simp only [List.cons_append, seqScan] <;>
        first
          | exact ih n l2
          | (split <;> simp [ih])

theorem afterNotify_of_not_mem (l : List Event) (h : Event.fatalNotify ∉ l) :
    afterNotify l = [] := by
  induction l with
  | nil => rfl
  | cons e rest ih =>
      cases e <;> simp_all [afterNotify]

theorem afterNotify_append (l1 l2 : List Event) (h : Event.fatalNotify ∉ l1) :
    afterNotify (l1 ++ l2) = afterNotify l2 := by
  induction l1 with
  | nil => rfl
  | cons e rest ih =>
      cases e <;> simp_all [afterNotify]

theorem processToken_cont_no_notify (cfg : Config) (env : Env)
    (raw token : List Byte) (evs : List Event) (nf : Bool)
    (h : processToken cfg env raw token = .cont evs nf) :
    Event.fatalNotify ∉ evs := by
  cases he : env token <;> simp [processToken, he] at h
  case openFail =>
    obtain ⟨h1, -⟩ := h
    subst h1
    simp
  case isDir =>
    obtain ⟨h1, -⟩ := h
    subst h1
    simp
  case done t =>
    obtain ⟨h1, -⟩ := h
    subst h1
    cases hc : emitDecision cfg.displayOnSuccess (classify t) <;> simp [hc]

theorem processTokenList_cont_no_notify (cfg : Config) (env : Env)
    (raw : List Byte) :
    ∀ (ts : List (List Byte)) (evs : List Event) (nf : Bool),
      processTokenList cfg env raw ts = .cont evs nf →
      Event.fatalNotify ∉ evs := by
  intro ts
  induction ts with
  | nil =>
      intro evs nf h
      simp [processTokenList] at h
      obtain ⟨h1, -⟩ := h
      subst h1
      simp
  | cons t ts ih =>
      intro evs nf h
      simp only [processTokenList] at h
      cases hpt : processToken cfg env raw t with
      | fatal evs1 => rw [hpt] at h; simp at h
      | cont evs1 nf1 =>
          rw [hpt] at h
          cases hrest : processTokenList cfg env raw ts with
          | fatal evs2 => rw [hrest] at h; simp at h
          | cont evs2 nf2 =>
              rw [hrest] at h
              simp at h
              obtain ⟨h1, -⟩ := h
              subst h1
              simp only [List.mem_append]
              rintro (hmem | hmem)
              · exact processToken_cont_no_notify cfg env raw t evs1 nf1 hpt hmem
              · exact ih evs2 nf2 hrest hmem

theorem processRecords_cont_no_notify (cfg : Config) (env : Env) :
    ∀ (rss : List (List Byte)) (evs : List Event) (nf : Bool),
      processRecords cfg env rss = .cont evs nf →
      Event.fatalNotify ∉ evs := by
  intro rss
  induction rss with
  | nil =>
      intro evs nf h
      simp [processRecords] at h
      obtain ⟨h1, -⟩ := h
      subst h1
      simp
  | cons r rss ih =>
      intro evs nf h
      simp only [processRecords] at h
      cases hpt : processTokenList cfg env r (tokensOfRecord cfg.delimation r) with
      | fatal evs1 => rw [hpt] at h; simp at h
      | cont evs1 nf1 =>
          rw [hpt] at h
          cases hrest : processRecords cfg env rss with
          | fatal evs2 => rw [hrest] at h; simp at h
          | cont evs2 nf2 =>
              rw [hrest] at h
              simp at h
              obtain ⟨h1, -⟩ := h
              subst h1
              simp only [List.mem_append]
              rintro (hmem | hmem)
              · exact processTokenList_cont_no_notify cfg env r _ evs1 nf1 hpt hmem
              · exact ih evs2 nf2 hrest hmem

theorem processToken_fatal_afterNotify (cfg : Config) (env : Env)
    (raw token : List Byte) (evs : List Event)
    (h : processToken cfg env raw token = .fatal evs) :
    afterNotify evs = [] := by
  cases he : env token <;> simp [processToken, he] at h <;> subst h <;> rfl

theorem processTokenList_fatal_afterNotify (cfg : Config) (env : Env)
    (raw : List Byte) :
    ∀ (ts : List (List Byte)) (evs : List Event),
      processTokenList cfg env raw ts = .fatal evs →
      afterNotify evs = [] := by
  intro ts
  induction ts with
  | nil => intro evs h; simp [processTokenList] at h
  | cons t ts ih =>
      intro evs h
      simp only [processTokenList] at h
      cases hpt : processToken cfg env raw t with
      | fatal evs1 =>
          rw [hpt] at h
          simp at h
          subst h
          exact processToken_fatal_afterNotify cfg env raw t evs1 hpt
      | cont evs1 nf1 =>
          rw [hpt] at h
          cases hrest : processTokenList cfg env raw ts with
          | fatal evs2 =>
              rw [hrest] at h
              simp at h
              subst h
              rw [afterNotify_append evs1 evs2
                (processToken_cont_no_notify cfg env raw t evs1 nf1 hpt)]
              exact ih evs2 hrest
          | cont evs2 nf2 => rw [hrest] at h; simp at h

theorem processRecords_fatal_afterNotify (cfg : Config) (env : Env) :
    ∀ (rss : List (List Byte)) (evs : List Event),
      processRecords cfg env rss = .fatal evs →
      afterNotify evs = [] := by
  intro rss
  induction rss with
  | nil => intro evs h; simp [processRecords] at h
  | cons r rss ih =>
      intro evs h
      simp only [processRecords] at h
      cases hpt : processTokenList cfg env r (tokensOfRecord cfg.delimation r) with
      | fatal evs1 =>
          rw [hpt] at h
          simp at h
          subst h
          exact processTokenList_fatal_afterNotify cfg env r _ evs1 hpt
      | cont evs1 nf1 =>
          rw [hpt] at h
          cases hrest : processRecords cfg env rss with
          | fatal evs2 =>
              rw [hrest] at h
              simp at h
              subst h
              rw [afterNotify_append evs1 evs2
                (processTokenList_cont_no_notify cfg env r _ evs1 nf1 hpt)]
              exact ih evs2 hrest
          | cont evs2 nf2 => rw [hrest] at h; simp at h

theorem processToken_cont_nonFatal_iff (cfg : Config) (env : Env)
    (raw token : List Byte) (evs : List Event) (nf : Bool)
    (h : processToken cfg env raw token = .cont evs nf) :
    nf = true ↔ ∃ e ∈ evs, isNonFatalDiag e = true := by
  cases he : env token <;> simp [processToken, he] at h
  case openFail =>
    obtain ⟨h1, h2⟩ := h
    subst h1
    subst h2
    simp [isNonFatalDiag]
  case isDir =>
    obtain ⟨h1, h2⟩ := h
    subst h1
    subst h2
    simp [isNonFatalDiag]
  case done t =>
    obtain ⟨h1, h2⟩ := h
    subst h1
    subst h2
    cases hc : emitDecision cfg.displayOnSuccess (classify t) <;>
      simp [hc, isNonFatalDiag]

theorem processTokenList_cont_nonFatal_iff (cfg : Config) (env : Env)
    (raw : List Byte) :
    ∀ (ts : List (List Byte)) (evs : List Event) (nf : Bool),
      processTokenList cfg env raw ts = .cont evs nf →
      (nf = true ↔ ∃ e ∈ evs, isNonFatalDiag e = true) := by
  intro ts
  induction ts with
  | nil =>
      intro evs nf h
      simp [processTokenList] at h
      obtain ⟨h1, h2⟩ := h
      subst h1
      subst h2
      simp
  | cons t ts ih =>
      intro evs nf h
      simp only [processTokenList] at h
      cases hpt : processToken cfg env raw t with
      | fatal evs1 => rw [hpt] at h; simp at h
      | cont evs1 nf1 =>
          rw [hpt] at h
          cases hrest : processTokenList cfg env raw ts with
          | fatal evs2 => rw [hrest] at h; simp at h
          | cont evs2 nf2 =>
              rw [hrest] at h
              simp at h
              obtain ⟨h1, h2⟩ := h
              subst h1
              subst h2
              rw [Bool.or_eq_true]
              rw [processToken_cont_nonFatal_iff cfg env raw t evs1 nf1 hpt]
              rw [ih evs2 nf2 hrest]
              constructor
              · rintro (⟨e, hm, hd⟩ | ⟨e, hm, hd⟩)
                · exact ⟨e, by simp [hm], hd⟩
                · exact ⟨e, by simp [hm], hd⟩
              · rintro ⟨e, hm, hd⟩
                rcases List.mem_append.mp hm with hm | hm
                · exact .inl ⟨e, hm, hd⟩
                · exact .inr ⟨e, hm, hd⟩

theorem processRecords_cont_nonFatal_iff (cfg : Config) (env : Env) :
    ∀ (rss : List (List Byte)) (evs : List Event) (nf : Bool),
      processRecords cfg env rss = .cont evs nf →
      (nf = true ↔ ∃ e ∈ evs, isNonFatalDiag e = true) := by
  intro rss
  induction rss with
  | nil =>
      intro evs nf h
      simp [processRecords] at h
      obtain ⟨h1, h2⟩ := h
      subst h1
      subst h2
      simp
  | cons r rss ih =>
      intro evs nf h
      simp only [processRecords] at h
      cases hpt : processTokenList cfg env r (tokensOfRecord cfg.delimation r) with
      | fatal evs1 => rw [hpt] at h; simp at h
      | cont evs1 nf1 =>
          rw [hpt] at h
          cases hrest : processRecords cfg env rss with
          | fatal evs2 => rw [hrest] at h; simp at h
          | cont evs2 nf2 =>
              rw [hrest] at h
              simp at h
              obtain ⟨h1, h2⟩ := h
              subst h1
              subst h2
              rw [Bool.or_eq_true]
              rw [processTokenList_cont_nonFatal_iff cfg env r _ evs1 nf1 hpt]
              rw [ih evs2 nf2 hrest]
              constructor
              · rintro (⟨e, hm, hd⟩ | ⟨e, hm, hd⟩)
                · exact ⟨e, by simp [hm], hd⟩
                · exact ⟨e, by simp [hm], hd⟩
              · rintro ⟨e, hm, hd⟩
                rcases List.mem_append.mp hm with hm | hm
                · exact .inl ⟨e, hm, hd⟩
                · exact .inr ⟨e, hm, hd⟩

theorem run_exit_two_iff (cfg : Config) (env : Env) (input : List Byte)
    (h : (run cfg env input).1 ≠ 1) :
    ((run cfg env input).1 = 2 ↔
      ∃ e ∈ (run cfg env input).2, isNonFatalDiag e = true) := by
  unfold run at h ⊢
  cases hp : processRecords cfg env (records (delimByte cfg.delimation) input) with
  | fatal evs => rw [hp] at h; simp at h
  | cont evs nf =>
      have := processRecords_cont_nonFatal_iff cfg env _ evs nf hp
      cases nf <;> simp_all

theorem processToken_scan (cfg : Config) (env : Env) (raw token : List Byte) :
    (∀ evs nf, processToken cfg env raw token = .cont evs nf →
       seqScan 0 evs = some 0) ∧
    (∀ evs, processToken cfg env raw token = .fatal evs →
       (seqScan 0 evs).isSome = true) := by
  constructor
  · intro evs nf h
    cases he : env token <;> simp [processToken, he] at h
    case openFail =>
      obtain ⟨h1, -⟩ := h
      subst h1
      rfl
    case isDir =>
      obtain ⟨h1, -⟩ := h
      subst h1
      rfl
    case done t =>
      obtain ⟨h1, -⟩ := h
      subst h1
      cases hc : emitDecision cfg.displayOnSuccess (classify t) <;>
        simp [hc, seqScan]
  · intro evs h
    cases he : env token <;> simp [processToken, he] at h <;> subst h <;> rfl

theorem processTokenList_scan (cfg : Config) (env : Env) (raw : List Byte) :
    ∀ (ts : List (List Byte)),
      (∀ evs nf, processTokenList cfg env raw ts = .cont evs nf →
         seqScan 0 evs = some 0) ∧
      (∀ evs, processTokenList cfg env raw ts = .fatal evs →
         (seqScan 0 evs).isSome = true) := by
  intro ts
  induction ts with
  | nil =>
      refine ⟨fun evs nf h => ?_, fun evs h => ?_⟩
      · simp [processTokenList] at h
        obtain ⟨h1, -⟩ := h
        subst h1
        rfl
      · simp [processTokenList] at h
  | cons t ts ih =>
      refine ⟨fun evs nf h => ?_, fun evs h => ?_⟩
      · simp only [processTokenList] at h
        cases hpt : processToken cfg env raw t with
        | fatal evs1 => rw [hpt] at h; simp at h
        | cont evs1 nf1 =>
            rw [hpt] at h
            cases hrest : processTokenList cfg env raw ts with
            | fatal evs2 => rw [hrest] at h; simp at h
            | cont evs2 nf2 =>
                rw [hrest] at h
                simp at h
                obtain ⟨h1, -⟩ := h
                subst h1
                rw [seqScan_append,
                  (processToken_scan cfg env raw t).1 evs1 nf1 hpt]
                exact ih.1 evs2 nf2 hrest
      · simp only [processTokenList] at h
        cases hpt : processToken cfg env raw t with
        | fatal evs1 =>
            rw [hpt] at h
            simp at h
            subst h
            exact (processToken_scan cfg env raw t).2 evs1 hpt
        | cont evs1 nf1 =>
            rw [hpt] at h
            cases hrest : processTokenList cfg env raw ts with
            | fatal evs2 =>
                rw [hrest] at h
                simp at h
                subst h
                rw [seqScan_append,
                  (processToken_scan cfg env raw t).1 evs1 nf1 hpt]
                exact ih.2 evs2 hrest
            | cont evs2 nf2 => rw [hrest] at h; simp at h

theorem processRecords_scan (cfg : Config) (env : Env) :
    ∀ (rss : List (List Byte)),
      (∀ evs nf, processRecords cfg env rss = .cont evs nf →
         seqScan 0 evs = some 0) ∧
      (∀ evs, processRecords cfg env rss = .fatal evs →
         (seqScan 0 evs).isSome = true) := by
  intro rss
  induction rss with
  | nil =>
      refine ⟨fun evs nf h => ?_, fun evs h => ?_⟩
      · simp [processRecords] at h
        obtain ⟨h1, -⟩ := h
        subst h1
        rfl
      · simp [processRecords] at h
  | cons r rss ih =>
      refine ⟨fun evs nf h => ?_, fun evs h => ?_⟩
      · simp only [processRecords] at h
        cases hpt : processTokenList cfg env r (tokensOfRecord cfg.delimation r) with
        | fatal evs1 => rw [hpt] at h; simp at h
        | cont evs1 nf1 =>
            rw [hpt] at h
            cases hrest : processRecords cfg env rss with
            | fatal evs2 => rw [hrest] at h; simp at h
            | cont evs2 nf2 =>
                rw [hrest] at h
                simp at h
                obtain ⟨h1, -⟩ := h
                subst h1
                rw [seqScan_append,
                  (processTokenList_scan cfg env r _).1 evs1 nf1 hpt]
                exact ih.1 evs2 nf2 hrest
      · simp only [processRecords] at h
        cases hpt : processTokenList cfg env r (tokensOfRecord cfg.delimation r) with
        | fatal evs1 =>
            rw [hpt] at h
            simp at h
            subst h
            exact (processTokenList_scan cfg env r _).2 evs1 hpt
        | cont evs1 nf1 =>
            rw [hpt] at h
            cases hrest : processRecords cfg env rss with
            | fatal evs2 =>
                rw [hrest] at h
                simp at h
                subst h
                rw [seqScan_append,
                  (processTokenList_scan cfg env r _).1 evs1 nf1 hpt]
                exact ih.2 evs2 hrest
            | cont evs2 nf2 => rw [hrest] at h; simp at h

theorem emit_processToken (cfg : Config) (env : Env) (raw token bs : List Byte)
    (h : Event.emit bs ∈ stepEvents (processToken cfg env raw token)) :
    bs = emitBytes cfg.delimation raw token := by
  cases he : env token <;> simp [processToken, he, stepEvents] at h
  case done t =>
    cases hc : emitDecision cfg.displayOnSuccess (classify t) <;>
      simp [hc] at h
    exact h

theorem emit_processTokenList (cfg : Config) (env : Env) (raw bs : List Byte) :
    ∀ (ts : List (List Byte)),
      Event.emit bs ∈ stepEvents (processTokenList cfg env raw ts) →
      ∃ token ∈ ts, bs = emitBytes cfg.delimation raw token := by
  intro ts
  induction ts with
  | nil => intro h; simp [processTokenList, stepEvents] at h
  | cons t ts ih =>
      intro h
      simp only [processTokenList] at h
      cases hpt : processToken cfg env raw t with
      | fatal evs1 =>
          rw [hpt] at h
          refine ⟨t, by simp, ?_⟩
          have : Event.emit bs ∈ stepEvents (processToken cfg env raw t) := by
            rw [hpt]; exact h
          exact emit_processToken cfg env raw t bs this
      | cont evs1 nf1 =>
          rw [hpt] at h
          cases hrest : processTokenList cfg env raw ts with
          | fatal evs2 =>
              rw [hrest] at h
              rcases List.mem_append.mp h with hm | hm
              · refine ⟨t, by simp, ?_⟩
                have : Event.emit bs ∈ stepEvents (processToken cfg env raw t) := by
                  rw [hpt]; exact hm
                exact emit_processToken cfg env raw t bs this
              · have : Event.emit bs ∈ stepEvents (processTokenList cfg env raw ts) := by
                  rw [hrest]; exact hm
                obtain ⟨tk, htk, hbs⟩ := ih this
                exact ⟨tk, by simp [htk], hbs⟩
          | cont evs2 nf2 =>
              rw [hrest] at h
              rcases List.mem_append.mp h with hm | hm
              · refine ⟨t, by simp, ?_⟩
                have : Event.emit bs ∈ stepEvents (processToken cfg env raw t) := by
                  rw [hpt]; exact hm
                exact emit_processToken cfg env raw t bs this
              · have : Event.emit bs ∈ stepEvents (processTokenList cfg env raw ts) := by
                  rw [hrest]; exact hm
                obtain ⟨tk, htk, hbs⟩ := ih this
                exact ⟨tk, by simp [htk], hbs⟩

theorem emit_processRecords (cfg : Config) (env : Env) (bs : List Byte) :
    ∀ (rss : List (List Byte)),
      Event.emit bs ∈ stepEvents (processRecords cfg env rss) →
      ∃ raw ∈ rss, ∃ token ∈ tokensOfRecord cfg.delimation raw,
        bs = emitBytes cfg.delimation raw token := by
  intro rss
  induction rss with
  | nil => intro h; simp [processRecords, stepEvents] at h
  | cons r rss ih =>
      intro h
      simp only [processRecords] at h
      cases hpt : processTokenList cfg env r (tokensOfRecord cfg.delimation r) with
      | fatal evs1 =>
          rw [hpt] at h
          have : Event.emit bs ∈
              stepEvents (processTokenList cfg env r (tokensOfRecord cfg.delimation r)) := by
            rw [hpt]; exact h
          obtain ⟨tk, htk, hbs⟩ := emit_processTokenList cfg env r bs _ this
          exact ⟨r, by simp, tk, htk, hbs⟩
      | cont evs1 nf1 =>
          rw [hpt] at h
          cases hrest : processRecords cfg env rss with
          | fatal evs2 =>
              rw [hrest] at h
              rcases List.mem_append.mp h with hm | hm
              · have : Event.emit bs ∈ stepEvents
                    (processTokenList cfg env r (tokensOfRecord cfg.delimation r)) := by
                  rw [hpt]; exact hm
                obtain ⟨tk, htk, hbs⟩ := emit_processTokenList cfg env r bs _ this
                exact ⟨r, by simp, tk, htk, hbs⟩
              · have : Event.emit bs ∈ stepEvents (processRecords cfg env rss) := by
                  rw [hrest]; exact hm
                obtain ⟨raw, hraw, tk, htk, hbs⟩ := ih this
                exact ⟨raw, by simp [hraw], tk, htk, hbs⟩
          | cont evs2 nf2 =>
              rw [hrest] at h
              rcases List.mem_append.mp h with hm | hm
              · have : Event.emit bs ∈ stepEvents
                    (processTokenList cfg env r (tokensOfRecord cfg.delimation r)) := by
                  rw [hpt]; exact hm
                obtain ⟨tk, htk, hbs⟩ := emit_processTokenList cfg env r bs _ this
                exact ⟨r, by simp, tk, htk, hbs⟩
              · have : Event.emit bs ∈ stepEvents (processRecords cfg env rss) := by
                  rw [hrest]; exact hm
                obtain ⟨raw, hraw, tk, htk, hbs⟩ := ih this
                exact ⟨raw, by simp [hraw], tk, htk, hbs⟩

theorem records_replicate (d : Byte) (n : Nat) :
    records d (List.replicate n d) = List.replicate n [d] := by
  induction n with
  | zero => rfl
  | succ k ih =>
      have hstep : records d (List.replicate (k + 1) d) =
          [d] :: records d (List.replicate k d) := by
        simp [records, List.replicate_succ, recordsAux]
      rw [hstep, ih, List.replicate_succ]

theorem processRecords_no_tokens (cfg : Config) (env : Env) :
    ∀ (rss : List (List Byte)),
      (∀ r ∈ rss, tokensOfRecord cfg.delimation r = []) →
      processRecords cfg env rss = .cont [] false := by
  intro rss
  induction rss with
  | nil => intro _; rfl
  | cons r rss ih =>
      intro h
      have hr : tokensOfRecord cfg.delimation r = [] := h r (by simp)
      have hrest := ih (fun x hx => h x (by simp [hx]))
      simp [processRecords, hr, hrest, processTokenList]

theorem nonzeroRuns_all_zero :
    ∀ (l : List Byte), (∀ b ∈ l, b = 0) → nonzeroRuns [] l = [] := by
  intro l
  induction l with
  | nil => intro _; rfl
  | cons b rest ih =>
      intro h
      have hb : b = 0 := h b (by simp)
      subst hb
      simp only [nonzeroRuns, if_pos rfl]
      simp only [List.isEmpty_nil, if_pos rfl]
      exact ih (fun x hx => h x (by simp [hx]))

/-- C1 (counterexample): in Line mode, on the input consisting of two
consecutive line separators, with an oracle under which every open fails, the
program performs no open attempt at all: the run produces no events and exits
0.  The claim predicts that each empty Token is dispatched, its open fails
non-fatally, a diagnostic naming the empty path appears, and the exit status
is 2 — all false on the code, whose `*cursor == '\0'` check (query.c lines
213-214) breaks to the next raw read instead. -/
theorem C1_counterexample :
    run ⟨.line, true, false, "grep"⟩ (fun _ => .openFail) [10, 10] = (0, []) ∧
    ¬((run ⟨.line, true, false, "grep"⟩ (fun _ => .openFail) [10, 10]).1 = 2 ∧
      Event.diagOpen [] ∈
        (run ⟨.line, true, false, "grep"⟩ (fun _ => .openFail) [10, 10]).2) := by
  decide

/-- C1 (amended): in Line and NullByte modes an empty Token arising from
consecutive delimiters is NOT dispatched to the Record Processor: no open is
attempted, no diagnostic is produced, no subprocess is invoked, and a run
whose input is only delimiters exits 0 with an empty trace, whatever the
oracle says. -/
theorem C1_empty_tokens_skipped (env : Env) (dos rsf : Bool) (c : String)
    (n : Nat) :
    tokensOfRecord .line [10] = [] ∧
    tokensOfRecord .nullByte [0] = [] ∧
    run ⟨.line, dos, rsf, c⟩ env (List.replicate n 10) = (0, []) ∧
    run ⟨.nullByte, dos, rsf, c⟩ env (List.replicate n 0) = (0, []) := by
  refine ⟨by decide, by decide, ?_, ?_⟩
  · have h1 : records (delimByte (Config.mk .line dos rsf c).delimation)
        (List.replicate n 10) = List.replicate n [10] := records_replicate 10 n
    have h2 : processRecords (Config.mk .line dos rsf c) env
        (List.replicate n [10]) = .cont [] false := by
      apply processRecords_no_tokens
      intro r hr
      rw [List.eq_of_mem_replicate hr]
      rfl
    unfold run
    rw [h1, h2]
    rfl
  · have h1 : records (delimByte (Config.mk .nullByte dos rsf c).delimation)
        (List.replicate n 0) = List.replicate n [0] := records_replicate 0 n
    have h2 : processRecords (Config.mk .nullByte dos rsf c) env
        (List.replicate n [0]) = .cont [] false := by
      apply processRecords_no_tokens
      intro r hr
      rw [List.eq_of_mem_replicate hr]
      rfl
    unfold run
    rw [h1, h2]
    rfl

theorem C1_witness :
    tokensOfRecord .line [10] = [] ∧
    tokensOfRecord .nullByte [0] = [] ∧
    run ⟨.line, true, false, "grep"⟩ (fun _ => .openFail)
      (List.replicate 3 10) = (0, []) ∧
    run ⟨.nullByte, true, false, "grep"⟩ (fun _ => .openFail)
      (List.replicate 3 0) = (0, []) :=
  C1_empty_tokens_skipped (fun _ => .openFail) true false "grep" 3

/-- C2: for a record whose child terminates with a determinate classified
code, the token is emitted iff (displayOnSuccess and classified code 0) or
(not displayOnSuccess and classified code nonzero); any emitted bytes are the
record's emit bytes, and the two polarities are complementary, so toggling
the flag over the same outcomes partitions the determinate records into two
disjoint emitted sets whose union is all of them. -/
theorem C2_emit_polarity (cfg : Config) (env : Env) (raw token : List Byte)
    (t : ChildTermination) (h : env token = .done t) :
    (Event.emit (emitBytes cfg.delimation raw token) ∈
        stepEvents (processToken cfg env raw token) ↔
      emitDecision cfg.displayOnSuccess (classify t) = true) ∧
    (∀ bs, Event.emit bs ∈ stepEvents (processToken cfg env raw token) →
      bs = emitBytes cfg.delimation raw token) ∧
    (∀ code : Nat, emitDecision true code = !emitDecision false code) := by
  refine ⟨?_, fun bs => emit_processToken cfg env raw token bs, ?_⟩
  · cases hc : emitDecision cfg.displayOnSuccess (classify t) <;>
      simp [processToken, h, stepEvents, hc]
  · intro code
    cases hc : (code == 0) <;> simp [emitDecision, bne, hc]

theorem C2_witness :
    (Event.emit (emitBytes Delimation.line [97, 10] [97]) ∈
        stepEvents (processToken ⟨.line, true, false, "grep"⟩
          (fun _ => .done (.exited 0)) [97, 10] [97]) ↔
      emitDecision true (classify (.exited 0)) = true) ∧
    (∀ bs, Event.emit bs ∈ stepEvents (processToken ⟨.line, true, false, "grep"⟩
          (fun _ => .done (.exited 0)) [97, 10] [97]) →
      bs = emitBytes Delimation.line [97, 10] [97]) ∧
    (∀ code : Nat, emitDecision true code = !emitDecision false code) :=
  C2_emit_polarity ⟨.line, true, false, "grep"⟩ (fun _ => .done (.exited 0))
    [97, 10] [97] (.exited 0) rfl

/-- C3: an open failure or a directory path is a non-fatal error: the record
processor yields exactly one diagnostic naming the path, spawns no
subprocess for that token, and continues with the next token; and, in a run
that did not hit a fatal error, the final exit status is 2 exactly when such
a non-fatal diagnostic occurred. -/
theorem C3_nonfatal_open_and_dir (cfg : Config) (env : Env)
    (raw token input : List Byte) :
    (env token = .openFail →
      processToken cfg env raw token = .cont [.diagOpen token] true) ∧
    (env token = .isDir →
      processToken cfg env raw token = .cont [.diagDir token] true) ∧
    (∀ ts evs nf, env token = .openFail →
      processTokenList cfg env raw ts = .cont evs nf →
      processTokenList cfg env raw (token :: ts) =
        .cont (.diagOpen token :: evs) true) ∧
    (∀ ts evs nf, env token = .isDir →
      processTokenList cfg env raw ts = .cont evs nf →
      processTokenList cfg env raw (token :: ts) =
        .cont (.diagDir token :: evs) true) ∧
    ((run cfg env input).1 ≠ 1 →
      ((run cfg env input).1 = 2 ↔
        ∃ e ∈ (run cfg env input).2, isNonFatalDiag e = true)) := by
  refine ⟨fun h => by simp [processToken, h], fun h => by simp [processToken, h],
    ?_, ?_, run_exit_two_iff cfg env input⟩
  · intro ts evs nf h hts
    simp [processTokenList, processToken, h, hts]
  · intro ts evs nf h hts
    simp [processTokenList, processToken, h, hts]

theorem C3_witness :
    processToken ⟨.line, true, false, "grep"⟩ (fun _ => .openFail)
      [97, 10] [97] = .cont [.diagOpen [97]] true ∧
    ((run ⟨.line, true, false, "grep"⟩ (fun _ => .openFail) [97, 10]).1 = 2 ↔
      ∃ e ∈ (run ⟨.line, true, false, "grep"⟩ (fun _ => .openFail) [97, 10]).2,
        isNonFatalDiag e = true) :=
  ⟨(C3_nonfatal_open_and_dir ⟨.line, true, false, "grep"⟩ (fun _ => .openFail)
      [97, 10] [97] [97, 10]).1 rfl,
   (C3_nonfatal_open_and_dir ⟨.line, true, false, "grep"⟩ (fun _ => .openFail)
      [97, 10] [97] [97, 10]).2.2.2.2 (by decide)⟩

/-- C4: an execvp failure makes the child report a diagnostic naming the
executable on its error stream and notify the parent via SIGUSR1, and on
receiving that notification the parent terminates immediately with exit
status 1: whenever the notification appears in a run's trace, the exit
status is 1 and no event at all (in particular no emission) follows it. -/
theorem C4_exec_failure_fatal (cfg : Config) (env : Env)
    (raw token : List Byte) (h : env token = .execFail) :
    processToken cfg env raw token =
      .fatal [.spawn token, .diagExec cfg.command, .fatalNotify] ∧
    (∀ input, Event.fatalNotify ∈ (run cfg env input).2 →
      (run cfg env input).1 = 1 ∧ afterNotify (run cfg env input).2 = []) := by
  refine ⟨by simp [processToken, h], ?_⟩
  intro input hmem
  rw [run_events] at hmem
  cases hp : processRecords cfg env (records (delimByte cfg.delimation) input) with
  | fatal evs =>
      rw [run_exit_of_fatal cfg env input evs hp]
      exact ⟨rfl, processRecords_fatal_afterNotify cfg env _ evs hp⟩
  | cont evs nf =>
      rw [hp] at hmem
      exact absurd hmem (processRecords_cont_no_notify cfg env _ evs nf hp)

theorem C4_witness :
    processToken ⟨.line, true, false, "nosuch"⟩ (fun _ => .execFail)
      [97, 10] [97] =
      .fatal [.spawn [97], .diagExec "nosuch", .fatalNotify] ∧
    (run ⟨.line, true, false, "nosuch"⟩ (fun _ => .execFail)
      [97, 10, 98, 10]).1 = 1 ∧
    afterNotify (run ⟨.line, true, false, "nosuch"⟩ (fun _ => .execFail)
      [97, 10, 98, 10]).2 = [] :=
  ⟨(C4_exec_failure_fatal ⟨.line, true, false, "nosuch"⟩ (fun _ => .execFail)
      [97, 10] [97] rfl).1,
   (C4_exec_failure_fatal ⟨.line, true, false, "nosuch"⟩ (fun _ => .execFail)
      [97, 10] [97] rfl).2 [97, 10, 98, 10] (by decide)⟩

/-- C5: every reaped child's termination is classified as either a normal
exit, whose classified code is the child's exit code, or a termination by
signal, whose classified code is 128 plus the signal number. -/
theorem C5_classification (t : ChildTermination) :
    (∃ c, t = .exited c ∧ classify t = c) ∨
    (∃ s, t = .signaled s ∧ classify t = 128 + s) := by
  cases t with
  | exited c => exact .inl ⟨c, rfl, rfl⟩
  | signaled s => exact .inr ⟨s, rfl, Nat.add_comm s 128⟩

theorem C5_witness :
    ((∃ c, ChildTermination.exited 7 = .exited c ∧ classify (.exited 7) = c) ∨
     (∃ s, ChildTermination.exited 7 = .signaled s ∧
       classify (.exited 7) = 128 + s)) ∧
    ((∃ c, ChildTermination.signaled 9 = .exited c ∧
       classify (.signaled 9) = c) ∨
     (∃ s, ChildTermination.signaled 9 = .signaled s ∧
       classify (.signaled 9) = 128 + s)) :=
  ⟨C5_classification (.exited 7), C5_classification (.signaled 9)⟩

/-- C6: every emitted record's bytes come from a raw input record and one of
its tokens; in NullByte mode they are exactly the raw record including its
original trailing terminator, and in Line and Whitespace modes they are the
token text followed by a line terminator. -/
theorem C6_emitted_bytes (cfg : Config) (env : Env) (input bs : List Byte)
    (h : Event.emit bs ∈ (run cfg env input).2) :
    ∃ raw ∈ records (delimByte cfg.delimation) input,
      ∃ token ∈ tokensOfRecord cfg.delimation raw,
        bs = emitBytes cfg.delimation raw token ∧
        (cfg.delimation = .nullByte → bs = raw) ∧
        (cfg.delimation ≠ .nullByte → bs = token ++ [10]) := by
  rw [run_events] at h
  obtain ⟨raw, hraw, token, htoken, hbs⟩ := emit_processRecords cfg env bs _ h
  refine ⟨raw, hraw, token, htoken, hbs, ?_, ?_⟩
  · intro hd
    rw [hbs, hd]
    rfl
  · intro hd
    rw [hbs]
    cases hdm : cfg.delimation with
    | nullByte => exact absurd hdm hd
    | line => rfl
    | whitespace => rfl

theorem C6_witness :
    ∃ raw ∈ records (delimByte Delimation.nullByte) [120, 0],
      ∃ token ∈ tokensOfRecord Delimation.nullByte raw,
        [120, 0] = emitBytes Delimation.nullByte raw token ∧
        (Delimation.nullByte = Delimation.nullByte → [120, 0] = raw) ∧
        (Delimation.nullByte ≠ Delimation.nullByte → [120, 0] = token ++ [10]) :=
  C6_emitted_bytes ⟨.nullByte, true, false, "tr"⟩
    (fun _ => .done (.exited 0)) [120, 0] [120, 0] (by decide)

/-- C7: in Whitespace mode a raw line that is empty or consists only of
ASCII whitespace yields zero tokens, produces no events (in particular no
subprocess spawn), and the driving loop proceeds to the next raw read with
nothing changed. -/
theorem C7_whitespace_blank_line (cfg : Config) (env : Env) (raw : List Byte)
    (hd : cfg.delimation = .whitespace) (h : ∀ b ∈ raw, isspaceB b = true) :
    tokensOfRecord cfg.delimation raw = [] ∧
    processTokenList cfg env raw (tokensOfRecord cfg.delimation raw) =
      .cont [] false ∧
    (∀ rss, processRecords cfg env (raw :: rss) = processRecords cfg env rss) := by
  have htok : tokensOfRecord cfg.delimation raw = [] := by
    rw [hd]
    show wordsOf (raw.map fun b => if isspaceB b then 0 else b) = []
    apply nonzeroRuns_all_zero
    intro b hb
    obtain ⟨a, ha, rfl⟩ := List.mem_map.mp hb
    simp [h a ha]
  have hpl : processTokenList cfg env raw (tokensOfRecord cfg.delimation raw) =
      .cont [] false := by
    rw [htok]
    rfl
  refine ⟨htok, hpl, ?_⟩
  intro rss
  simp only [processRecords, hpl]
  cases hrest : processRecords cfg env rss <;> simp

theorem C7_witness :
    tokensOfRecord Delimation.whitespace [32, 9, 10] = [] ∧
    processTokenList ⟨.whitespace, true, false, "grep"⟩
      (fun _ => .done (.exited 0)) [32, 9, 10]
      (tokensOfRecord Delimation.whitespace [32, 9, 10]) = .cont [] false ∧
    processRecords ⟨.whitespace, true, false, "grep"⟩
      (fun _ => .done (.exited 0)) ([32, 9, 10] :: [[97, 10]]) =
    processRecords ⟨.whitespace, true, false, "grep"⟩
      (fun _ => .done (.exited 0)) [[97, 10]] :=
  ⟨(C7_whitespace_blank_line ⟨.whitespace, true, false, "grep"⟩
      (fun _ => .done (.exited 0)) [32, 9, 10] rfl (by decide)).1,
   (C7_whitespace_blank_line ⟨.whitespace, true, false, "grep"⟩
      (fun _ => .done (.exited 0)) [32, 9, 10] rfl (by decide)).2.1,
   (C7_whitespace_blank_line ⟨.whitespace, true, false, "grep"⟩
      (fun _ => .done (.exited 0)) [32, 9, 10] rfl (by decide)).2.2 [[97, 10]]⟩

/-- C8 (counterexample): with the oracle reporting an interrupted wait
failure on the first token, the program terminates immediately with the
fatal exit status 1 and never reaches the second token, contradicting the
claim that a wait/reap failure due to interruption is non-fatal: query.c
lines 269-273 treat every wait failure alike, without inspecting errno. -/
theorem C8_counterexample :
    run ⟨.line, true, false, "grep"⟩
        (fun tk => if tk = [97] then .waitFail true else .done (.exited 0))
        [97, 10, 98, 10] = (1, [.spawn [97], .diagWait]) ∧
    Event.spawn [98] ∉
      (run ⟨.line, true, false, "grep"⟩
        (fun tk => if tk = [97] then .waitFail true else .done (.exited 0))
        [97, 10, 98, 10]).2 ∧
    (run ⟨.line, true, false, "grep"⟩
        (fun tk => if tk = [97] then .waitFail true else .done (.exited 0))
        [97, 10, 98, 10]).1 = 1 := by
  decide

/-- C8 (amended): every wait/reap failure, whether or not it is due to being
interrupted, is fatal: the record processor returns a fatal result with one
diagnostic, all remaining tokens are skipped, and the run exits with status
1. -/
theorem C8_wait_failure_always_fatal (cfg : Config) (env : Env)
    (raw token : List Byte) (b : Bool) (h : env token = .waitFail b) :
    processToken cfg env raw token = .fatal [.spawn token, .diagWait] ∧
    (∀ ts, processTokenList cfg env raw (token :: ts) =
      .fatal [.spawn token, .diagWait]) ∧
    (∀ input evs,
      processRecords cfg env (records (delimByte cfg.delimation) input) =
        .fatal evs → run cfg env input = (1, evs)) := by
  have hpt : processToken cfg env raw token =
      .fatal [.spawn token, .diagWait] := by
    simp [processToken, h]
  refine ⟨hpt, ?_, run_exit_of_fatal cfg env⟩
  intro ts
  simp [processTokenList, hpt]

theorem C8_witness :
    processToken ⟨.line, true, false, "grep"⟩ (fun _ => .waitFail true)
      [97, 10] [97] = .fatal [.spawn [97], .diagWait] ∧
    processTokenList ⟨.line, true, false, "grep"⟩ (fun _ => .waitFail true)
      [97, 10] ([97] :: [[98]]) = .fatal [.spawn [97], .diagWait] :=
  ⟨(C8_wait_failure_always_fatal ⟨.line, true, false, "grep"⟩
      (fun _ => .waitFail true) [97, 10] [97] true rfl).1,
   (C8_wait_failure_always_fatal ⟨.line, true, false, "grep"⟩
      (fun _ => .waitFail true) [97, 10] [97] true rfl).2.1 [[98]]⟩

/-- C9: at every point of a run at most one child process exists: the event
trace satisfies the spawn/reap discipline (a spawn only when no child is
alive, a reap only when exactly one is), and for a record with a determinate
outcome the processor's trace is the spawn immediately followed by its reap,
with only emissions after. -/
theorem C9_at_most_one_child (cfg : Config) (env : Env) (input : List Byte) :
    (seqScan 0 (run cfg env input).2).isSome = true ∧
    (∀ raw token t, env token = .done t →
      ∃ rest, stepEvents (processToken cfg env raw token) =
        .spawn token :: .reap token :: rest ∧
        ∀ e ∈ rest, ∃ bs, e = .emit bs) := by
  constructor
  · rw [run_events]
    cases hp : processRecords cfg env (records (delimByte cfg.delimation) input) with
    | fatal evs => exact (processRecords_scan cfg env _).2 evs hp
    | cont evs nf =>
        have hs := (processRecords_scan cfg env _).1 evs nf hp
        simp [stepEvents, hs]
  · intro raw token t h
    refine ⟨if emitDecision cfg.displayOnSuccess (classify t)
        then [.emit (emitBytes cfg.delimation raw token)] else [], ?_, ?_⟩
    · simp [processToken, h, stepEvents]
    · intro e he
      cases hc : emitDecision cfg.displayOnSuccess (classify t)
      · rw [hc] at he
        simp at he
      · rw [hc] at he
        simp at he
        exact ⟨_, he⟩

theorem C9_witness :
    (seqScan 0 (run ⟨.line, true, false, "grep"⟩ (fun _ => .done (.exited 0))
      [97, 10, 98, 10]).2).isSome = true ∧
    ∃ rest, stepEvents (processToken ⟨.line, true, false, "grep"⟩
        (fun _ => .done (.exited 0)) [97, 10] [97]) =
      .spawn [97] :: .reap [97] :: rest ∧ ∀ e ∈ rest, ∃ bs, e = .emit bs :=
  ⟨(C9_at_most_one_child ⟨.line, true, false, "grep"⟩
      (fun _ => .done (.exited 0)) [97, 10, 98, 10]).1,
   (C9_at_most_one_child ⟨.line, true, false, "grep"⟩
      (fun _ => .done (.exited 0)) [97, 10, 98, 10]).2 [97, 10] [97]
      (.exited 0) rfl⟩

/-- C10: a failing fstat on a successfully opened token is fatal: the record
processor produces one diagnostic naming the path and returns the fatal
result, every remaining token is skipped, and the run terminates with exit
status 1 — it is not recorded as a non-fatal error. -/
theorem C10_fstat_failure_fatal (cfg : Config) (env : Env)
    (raw token : List Byte) (h : env token = .fstatFail) :
    processToken cfg env raw token = .fatal [.diagStat token] ∧
    (∀ ts, processTokenList cfg env raw (token :: ts) =
      .fatal [.diagStat token]) ∧
    (∀ input evs,
      processRecords cfg env (records (delimByte cfg.delimation) input) =
        .fatal evs → run cfg env input = (1, evs)) := by
  have hpt : processToken cfg env raw token = .fatal [.diagStat token] := by
    simp [processToken, h]
  refine ⟨hpt, ?_, run_exit_of_fatal cfg env⟩
  intro ts
  simp [processTokenList, hpt]

theorem C10_witness :
    processToken ⟨.line, true, false, "grep"⟩ (fun _ => .fstatFail)
      [97, 10] [97] = .fatal [.diagStat [97]] ∧
    processTokenList ⟨.line, true, false, "grep"⟩ (fun _ => .fstatFail)
      [97, 10] ([97] :: [[98]]) = .fatal [.diagStat [97]] :=
  ⟨(C10_fstat_failure_fatal ⟨.line, true, false, "grep"⟩
      (fun _ => .fstatFail) [97, 10] [97] rfl).1,
   (C10_fstat_failure_fatal ⟨.line, true, false, "grep"⟩
      (fun _ => .fstatFail) [97, 10] [97] rfl).2.1 [[98]]⟩

end Query

